import Mathlib

/-!
Verification of the prioritized experience replay buffer
(`src/mlpack/methods/reinforcement_learning/replay/prioritized_replay.hpp`).

The replay buffer code (`PrioritizedReplay`) is embedded directly from the
source.  Double-precision priorities, rewards and state entries are embedded
as rationals (`ℚ`); the importance-sampling weight computation, which uses a
real-valued power `pow(x, -beta)`, is embedded over `ℝ` with `Real.rpow`.
`size_t` arithmetic is modelled on `Nat`, with explicit wraparound modulo
`2 ^ 64` where the source can underflow (`upperBound - 1`).

The `SumTree` class is referenced by the source but its implementation is not
part of the repository snapshot, so it is modelled from the specification
(§3 "PrioritySumTree", §4.1): the tree is represented by its leaf array, and
every internal node is determined by the sum invariant, so `Total` is the sum
of all leaves, `RangeSum(lo, hi)` is the sum of the leaves in `[lo, hi]`, and
`FindPrefixSum` is the root-to-leaf descent on half-interval sums with the
specified clamp to leaf `capacity - 1` when the requested mass reaches the
total.
-/

/-- One stored transition: `(state, action, reward, nextState, terminalFlag)`.
The state encoding is a numeric vector (`arma::mat` column), the action an
integer (`arma::icolvec` entry). -/
structure Transition where
  state : List ℚ
  action : Int
  reward : ℚ
  nextState : List ℚ
  isEnd : Bool
deriving DecidableEq

instance : Inhabited Transition := ⟨⟨[], 0, 0, [], false⟩⟩

/-- Modelled from the spec (§4.1 failure semantics): an out-of-range index
given to a tree update is a contract violation. -/
inductive TreeError where
  | contractViolation
deriving DecidableEq

/-- Modelled from the spec (§3 "PrioritySumTree"): the `SumTree` class used by
`PrioritizedReplay` is not part of the repository snapshot, so it is modelled
by its leaf array.  Internal nodes hold the sums of their children (§3
invariant), hence they are fully determined by the leaves and are not stored
separately.  Leaf `i` corresponds to buffer slot `i` for `i < capacity`;
leaves at indices `>= capacity` stay zero. -/
structure SumTree where
  leaves : List ℚ
  capacity : Nat
deriving DecidableEq

/-- Modelled from the spec (§4.1 `Total`): the root value, i.e. the sum of all
leaves. -/
def SumTree.total (t : SumTree) : ℚ := t.leaves.sum

/-- Modelled from the spec (§4.1 `RangeSum`): sum of the leaves in
`[lo, hi]` inclusive; an empty range sums to 0. -/
def SumTree.rangeSum (t : SumTree) (lo hi : Nat) : ℚ :=
  ((t.leaves.drop lo).take (hi + 1 - lo)).sum

/-- The value of leaf `i` (0 outside the array). -/
def SumTree.leafValue (t : SumTree) (i : Nat) : ℚ := t.leaves.getD i 0

/-- Modelled from the spec (§4.1 `Update`): requires `0 <= index < capacity`;
an out-of-range index is a contract violation.  Sets leaf `index` to `value`
(ancestor sums are implicit in the leaf representation). -/
def SumTree.update (t : SumTree) (index : Nat) (value : ℚ) :
    Except TreeError SumTree :=
  if index < t.capacity then
    .ok { leaves := t.leaves.set index value, capacity := t.capacity }
  else
    .error .contractViolation

/-- Modelled from the spec (§4.1 `FindPrefixSum` descent): at each internal
node, if `mass` is below the left child's sum, recurse left; otherwise
subtract the left sum and recurse right; return the leaf index reached.  On
the leaf representation the left child's sum is the sum of the left half of
the current leaf segment. -/
def treeDescend (l : List ℚ) (mass : ℚ) : Nat :=
  if _h : l.length ≤ 1 then 0
  else
    let m := l.length / 2
    if mass < (l.take m).sum then treeDescend (l.take m) mass
    else m + treeDescend (l.drop m) (mass - (l.take m).sum)
termination_by l.length
decreasing_by
  all_goals simp [List.length_take, List.length_drop]; omega

/-- Modelled from the spec (§4.1 `FindPrefixSum`): given `0 <= mass < Total()`
descend from the root; if `mass` equals or exceeds the total, clamp to the
rightmost valid leaf `capacity - 1` rather than reading an out-of-range or
zero-padding leaf. -/
def SumTree.findPrefixSum (t : SumTree) (mass : ℚ) : Nat :=
  if mass < t.total then treeDescend t.leaves mass else t.capacity - 1

/-- Model of the `size_t` decrement: the source computes `(full ? capacity : position) - 1`
in `size_t`, which wraps modulo `2 ^ 64` when the operand is 0. -/
def sub64 (n : Nat) : Nat := (n + (2 ^ 64 - 1)) % 2 ^ 64

/-- The constructor's sizing loop `int size = 1; while (size < capacity)
size *= 2;`, with explicit fuel (the loop doubles from 1, so `capacity` steps
always suffice). -/
def sizeLoop : Nat → Nat → Nat → Nat
  | 0, _, s => s
  | fuel + 1, c, s => if s < c then sizeLoop fuel c (2 * s) else s

/-- The sum-tree size chosen by the constructor. -/
def treeSize (capacity : Nat) : Nat := sizeLoop capacity capacity 1

/-- The replay buffer state, embedded field by field from the source class:
`alpha`, `max_priority`, `idxSum`, `batchSize`, `capacity`, `position`, the
five parallel transition arrays, and `full`. -/
structure PrioritizedReplay where
  alpha : ℚ
  max_priority : ℚ
  idxSum : SumTree
  batchSize : Nat
  capacity : Nat
  position : Nat
  states : List (List ℚ)
  actions : List Int
  rewards : List ℚ
  nextStates : List (List ℚ)
  isTerminal : List Bool
  full : Bool
deriving DecidableEq

/-- The source constructor: initializes `position = 0`, `full = false`,
`max_priority = 1.0`, allocates the transition arrays at `capacity` slots,
and allocates the sum tree at the size computed by the doubling loop.  The
constructor performs no validation of its arguments. -/
def mkPrioritizedReplay (batchSize capacity : Nat) (alpha : ℚ)
    (dimension : Nat) : PrioritizedReplay :=
  { alpha := alpha
    max_priority := 1
    idxSum := { leaves := List.replicate (treeSize capacity) 0
                capacity := capacity }
    batchSize := batchSize
    capacity := capacity
    position := 0
    states := List.replicate capacity (List.replicate dimension 0)
    actions := List.replicate capacity 0
    rewards := List.replicate capacity 0
    nextStates := List.replicate capacity (List.replicate dimension 0)
    isTerminal := List.replicate capacity false
    full := false }

/-- Embedding of `PrioritizedReplay::Store` (source lines 71-91): writes the transition's
five fields at slot `position`, sets the sum-tree leaf at `position` to
`max_priority * alpha` (note: the source multiplies, it does not
exponentiate), then advances `position`, wrapping to 0 and setting
`full = true` when `position` reaches `capacity`. -/
def PrioritizedReplay.Store (b : PrioritizedReplay) (t : Transition) :
    Except TreeError PrioritizedReplay :=
  (b.idxSum.update b.position (b.max_priority * b.alpha)).map (fun tree =>
    let b1 := { b with
      states := b.states.set b.position t.state
      actions := b.actions.set b.position t.action
      rewards := b.rewards.set b.position t.reward
      nextStates := b.nextStates.set b.position t.nextState
      isTerminal := b.isTerminal.set b.position t.isEnd
      idxSum := tree }
    if b1.position + 1 = b1.capacity then
      { b1 with position := 0, full := true }
    else
      { b1 with position := b1.position + 1 })

/-- Embedding of `PrioritizedReplay::sampleProportional` (source lines 93-104): computes
`totalSum = idxSum.sum(0, (full ? capacity : position) - 1)` (note the
`size_t` underflow when the buffer is empty), splits it into `batchSize`
equal segments, and for each stratum `bt` resolves the mass
`randu() * sumPerRange + bt * sumPerRange` through the tree's prefix-sum
descent.  The `arma::randu()` draws are passed explicitly as `draws`
(`draws.getD bt 0` is the draw of iteration `bt`). -/
def PrioritizedReplay.sampleProportional (b : PrioritizedReplay)
    (draws : List ℚ) : List Nat :=
  let upperBound := if b.full then b.capacity else b.position
  let totalSum := b.idxSum.rangeSum 0 (sub64 upperBound)
  let sumPerRange := totalSum / (b.batchSize : ℚ)
  (List.range b.batchSize).map (fun bt =>
    b.idxSum.findPrefixSum
      (draws.getD bt 0 * sumPerRange + (bt : ℚ) * sumPerRange))

/-- The outputs of `PrioritizedReplay::Sample`: the sampled indices, the five
gathered transition fields, and the normalized importance weights. -/
structure SampleOut where
  sampledIndices : List Nat
  sampledStates : List (List ℚ)
  sampledActions : List Int
  sampledRewards : List ℚ
  sampledNextStates : List (List ℚ)
  isTerminal : List Bool
  weights : List ℝ

/-- Embedding of `PrioritizedReplay::Sample` (source lines 106-135): draws indices via
`sampleProportional`, gathers the five transition fields at those indices,
computes for each sampled index `i` the raw weight
`pow(num_sample * (idxSum[i] / idxSum.sum()), -beta)` with
`num_sample = full ? capacity : position`, and finally divides the weight
vector by its maximum. -/
noncomputable def PrioritizedReplay.Sample (b : PrioritizedReplay)
    (draws : List ℚ) (beta : ℝ) : SampleOut :=
  let sampledIndices := b.sampleProportional draws
  let num_sample : Nat := if b.full then b.capacity else b.position
  let raw : List ℝ := sampledIndices.map (fun i =>
    ((num_sample : ℝ) *
      ((b.idxSum.leafValue i : ℝ) / (b.idxSum.total : ℝ))) ^ (-beta))
  { sampledIndices := sampledIndices
    sampledStates := sampledIndices.map (fun i => b.states.getD i [])
    sampledActions := sampledIndices.map (fun i => b.actions.getD i 0)
    sampledRewards := sampledIndices.map (fun i => b.rewards.getD i 0)
    sampledNextStates := sampledIndices.map (fun i => b.nextStates.getD i [])
    isTerminal := sampledIndices.map (fun i => b.isTerminal.getD i false)
    weights := raw.map (fun w => w / raw.foldr max 0) }

/-- The loop body of `PrioritizedReplay::update_priorities` (source lines
137-145) over the zipped `(index, priority)` pairs: for each pair the source
sets the tree leaf at `indices[i]` to `alpha * priorities[i]` (note: the
source multiplies, it does not exponentiate; and `priorities` is an
`arma::uvec`, i.e. a vector of unsigned integers) and then sets
`max_priority = max(max_priority, priorities[i])`. -/
def PrioritizedReplay.updLoop (b : PrioritizedReplay) :
    List (Nat × Nat) → Except TreeError PrioritizedReplay
  | [] => .ok b
  | (i, p) :: rest =>
    (b.idxSum.update i (b.alpha * (p : ℚ))).bind (fun tree =>
      PrioritizedReplay.updLoop
        { b with idxSum := tree
                 max_priority := max b.max_priority (p : ℚ) } rest)

/-- Embedding of `PrioritizedReplay::update_priorities` (source lines 137-145). -/
def PrioritizedReplay.update_priorities (b : PrioritizedReplay)
    (indices : List Nat) (priorities : List Nat) :
    Except TreeError PrioritizedReplay :=
  b.updLoop (indices.zip priorities)

/-- Iterated `Store`. -/
def PrioritizedReplay.storeN (b : PrioritizedReplay) :
    List Transition → Except TreeError PrioritizedReplay
  | [] => .ok b
  | t :: ts => (b.Store t).bind (fun b' => b'.storeN ts)

/-- One public buffer operation, for stating lifetime invariants.  `Sample`
only reads the buffer (its outputs are returned, not stored), so as a state
transformer it is the identity. -/
inductive ReplayOp where
  | store (t : Transition)
  | sample (draws : List ℚ) (beta : ℚ)
  | updatePriorities (indices : List Nat) (priorities : List Nat)

/-- Apply one operation to the buffer state. -/
def PrioritizedReplay.applyOp (b : PrioritizedReplay) :
    ReplayOp → Except TreeError PrioritizedReplay
  | .store t => b.Store t
  | .sample _ _ => .ok b
  | .updatePriorities idxs prios => b.update_priorities idxs prios

/-- Run a sequence of operations. -/
def PrioritizedReplay.runOps (b : PrioritizedReplay) :
    List ReplayOp → Except TreeError PrioritizedReplay
  | [] => .ok b
  | op :: ops => (b.applyOp op).bind (fun b' => b'.runOps ops)

/-- The transition stored at slot `j` (the five parallel arrays read back at
index `j`). -/
def PrioritizedReplay.getTransition (b : PrioritizedReplay) (j : Nat) :
    Transition :=
  { state := b.states.getD j []
    action := b.actions.getD j 0
    reward := b.rewards.getD j 0
    nextState := b.nextStates.getD j []
    isEnd := b.isTerminal.getD j false }

/-- A concrete transition used in concrete evaluations. -/
def tr0 : Transition := ⟨[0], 0, 0, [0], false⟩

/-- A second concrete transition. -/
def tr1 : Transition := ⟨[1], 1, 1, [1], false⟩

/-- A third concrete transition. -/
def tr2 : Transition := ⟨[2], 2, 2, [2], true⟩

/-! ## Helper lemmas -/

/-- Characterization of the constructor's sizing loop: with enough fuel it
returns the first value of the doubling sequence that reaches `c`. -/
lemma sizeLoop_ok (fuel : Nat) (c : Nat) : ∀ s : Nat, 0 < s →
    c ≤ s * 2 ^ fuel →
    c ≤ sizeLoop fuel c s ∧
      ∃ m, sizeLoop fuel c s = s * 2 ^ m ∧ (m = 0 ∨ s * 2 ^ (m - 1) < c) := by
  induction fuel with
  | zero =>
    intro s hs hfuel
    simp only [pow_zero, mul_one] at hfuel
    exact ⟨by simpa [sizeLoop] using hfuel, 0, by simp [sizeLoop], Or.inl rfl⟩
  | succ n ih =>
    intro s hs hfuel
    by_cases h : s < c
    · have hfuel' : c ≤ 2 * s * 2 ^ n := by
        calc c ≤ s * 2 ^ (n + 1) := hfuel
        _ = 2 * s * 2 ^ n := by ring
      obtain ⟨h1, m, hm, hmin⟩ := ih (2 * s) (by omega) hfuel'
      have hstep : sizeLoop (n + 1) c s = sizeLoop n c (2 * s) := by
        simp [sizeLoop, h]
      refine ⟨by rw [hstep]; exact h1, m + 1, ?_, ?_⟩
      · rw [hstep, hm]; ring
      · right
        simp only [Nat.add_sub_cancel]
        rcases hmin with hm0 | hlt
        · subst hm0; simpa using h
        · rcases m with _ | k
          · simpa using h
          · have he : 2 * s * 2 ^ (k + 1 - 1) = s * 2 ^ (k + 1) := by
              simp only [Nat.add_sub_cancel, pow_succ]; ring
            rwa [he] at hlt
    · refine ⟨by simpa [sizeLoop, h] using Nat.le_of_not_lt h, 0,
        by simp [sizeLoop, h], Or.inl rfl⟩

/-- The value `treeSize capacity` is the smallest power of two `>= capacity`. -/
lemma treeSize_spec (c : Nat) :
    c ≤ treeSize c ∧
      ∃ m, treeSize c = 2 ^ m ∧ ∀ j, c ≤ 2 ^ j → treeSize c ≤ 2 ^ j := by
  obtain ⟨h1, m, hm, hmin⟩ := sizeLoop_ok c c 1 one_pos
    (by simpa using (Nat.lt_two_pow c).le)
  rw [one_mul] at hm
  have ht : treeSize c = 2 ^ m := by rw [treeSize, hm]
  refine ⟨by rw [treeSize]; exact h1, m, ht, fun j hj => ?_⟩
  rw [ht]
  rcases hmin with hm0 | hlt
  · subst hm0
    have := Nat.two_pow_pos j
    simp only [pow_zero]
    omega
  · rw [one_mul] at hlt
    apply Nat.pow_le_pow_right (by omega)
    have h2 : 2 ^ (m - 1) < 2 ^ j := lt_of_lt_of_le hlt hj
    have := (Nat.pow_lt_pow_iff_right (by omega : 1 < 2)).mp h2
    omega

/-- The tree allocated by the constructor is at least as large as `capacity`. -/
lemma capacity_le_treeSize (c : Nat) : c ≤ treeSize c := (treeSize_spec c).1

/-- The `size_t` decrement of a nonzero value in range is ordinary decrement. -/
lemma sub64_eq (n : Nat) (h1 : 1 ≤ n) (h2 : n ≤ 2 ^ 64) : sub64 n = n - 1 := by
  unfold sub64
  have he : n + (2 ^ 64 - 1) = (n - 1) + 1 * 2 ^ 64 := by omega
  rw [he, Nat.add_mul_mod_self_right]
  exact Nat.mod_eq_of_lt (by omega)

/-- The populated-range sum used by `sampleProportional` is the sum of the
first `ub` leaves. -/
lemma rangeSum_take (t : SumTree) (ub : Nat) (h1 : 1 ≤ ub) (h2 : ub ≤ 2 ^ 64) :
    t.rangeSum 0 (sub64 ub) = (t.leaves.take ub).sum := by
  rw [SumTree.rangeSum, sub64_eq ub h1 h2, List.drop_zero,
    show ub - 1 + 1 - 0 = ub by omega]

/-- The prefix-sum descent, applied to a nonnegative leaf array whose total
strictly exceeds the requested mass, lands in range, on a leaf whose prefix
sum does not exceed the requested mass. -/
lemma treeDescend_le (n : Nat) : ∀ l : List ℚ, l.length ≤ n → ∀ mass : ℚ,
    0 ≤ mass → mass < l.sum → (∀ x ∈ l, 0 ≤ x) →
    treeDescend l mass < l.length ∧
      (l.take (treeDescend l mass)).sum ≤ mass := by
  induction n with
  | zero =>
    intro l hl mass h0 hlt _
    have hlen : l.length = 0 := by omega
    rw [List.length_eq_zero] at hlen
    subst hlen
    simp only [List.sum_nil] at hlt
    exact absurd hlt (not_lt.mpr h0)
  | succ n ih =>
    intro l hl mass h0 hlt hnn
    by_cases hlen : l.length ≤ 1
    · rw [treeDescend, dif_pos hlen]
      rcases l with _ | ⟨a, _ | ⟨b, tl⟩⟩
      · simp only [List.sum_nil] at hlt
        exact absurd hlt (not_lt.mpr h0)
      · exact ⟨by simp, by simp only [List.take_zero, List.sum_nil]; exact h0⟩
      · simp at hlen
    · rw [treeDescend, dif_neg hlen]
      have h2 : 2 ≤ l.length := by omega
      have hm1 : 1 ≤ l.length / 2 := by omega
      have hm2 : l.length / 2 < l.length := by omega
      have hsplit : (l.take (l.length / 2)).sum + (l.drop (l.length / 2)).sum
          = l.sum := List.sum_take_add_sum_drop l _
      by_cases hb : mass < (l.take (l.length / 2)).sum
      · rw [if_pos hb]
        have htl : (l.take (l.length / 2)).length ≤ n := by
          rw [List.length_take]; omega
        obtain ⟨hlt', hpre'⟩ := ih (l.take (l.length / 2)) htl mass h0 hb
          (fun x hx => hnn x (List.mem_of_mem_take hx))
        rw [List.length_take] at hlt'
        refine ⟨by omega, ?_⟩
        rwa [List.take_take,
          Nat.min_eq_left (le_of_lt (by omega :
            treeDescend (l.take (l.length / 2)) mass < l.length / 2))] at hpre'
      · rw [if_neg hb]
        have h0' : 0 ≤ mass - (l.take (l.length / 2)).sum :=
          sub_nonneg.mpr (not_lt.mp hb)
        have hlt2 : mass - (l.take (l.length / 2)).sum
            < (l.drop (l.length / 2)).sum := by linarith
        have htl : (l.drop (l.length / 2)).length ≤ n := by
          rw [List.length_drop]; omega
        obtain ⟨hlt', hpre'⟩ := ih (l.drop (l.length / 2)) htl _ h0' hlt2
          (fun x hx => hnn x (List.mem_of_mem_drop hx))
        rw [List.length_drop] at hlt'
        refine ⟨by omega, ?_⟩
        rw [List.take_add, List.sum_append]
        linarith

/-- Prefix sums of a nonnegative list are monotone in the prefix length. -/
lemma take_sum_mono (l : List ℚ) (a c : Nat) (hac : a ≤ c)
    (hnn : ∀ x ∈ l, 0 ≤ x) : (l.take a).sum ≤ (l.take c).sum := by
  have h1 : (l.take c).take a = l.take a := by
    rw [List.take_take, Nat.min_eq_left hac]
  have h2 : 0 ≤ ((l.take c).drop a).sum :=
    List.sum_nonneg (fun x hx =>
      hnn x (List.mem_of_mem_take (List.mem_of_mem_drop hx)))
  have h3 : ((l.take c).take a).sum + ((l.take c).drop a).sum
      = (l.take c).sum := List.sum_take_add_sum_drop _ _
  rw [← h1]
  linarith

/-- A `Store` succeeds whenever the write cursor is a valid tree index. -/
lemma Store_isOk (b : PrioritizedReplay) (t : Transition)
    (h : b.position < b.idxSum.capacity) : ∃ b', b.Store t = .ok b' := by
  rw [PrioritizedReplay.Store, SumTree.update, if_pos h]
  exact ⟨_, rfl⟩

/-- Field-level characterization of a successful `Store`. -/
lemma Store_fields (b : PrioritizedReplay) (t : Transition)
    (b' : PrioritizedReplay) (h : b.Store t = .ok b') :
    b'.position = (if b.position + 1 = b.capacity then 0 else b.position + 1) ∧
    b'.full = (b.full || decide (b.position + 1 = b.capacity)) ∧
    b'.capacity = b.capacity ∧
    b'.batchSize = b.batchSize ∧
    b'.alpha = b.alpha ∧
    b'.max_priority = b.max_priority ∧
    b'.idxSum.capacity = b.idxSum.capacity ∧
    b'.idxSum.leaves = b.idxSum.leaves.set b.position
      (b.max_priority * b.alpha) ∧
    b'.states = b.states.set b.position t.state ∧
    b'.actions = b.actions.set b.position t.action ∧
    b'.rewards = b.rewards.set b.position t.reward ∧
    b'.nextStates = b.nextStates.set b.position t.nextState ∧
    b'.isTerminal = b.isTerminal.set b.position t.isEnd ∧
    b.position < b.idxSum.capacity := by
  rw [PrioritizedReplay.Store, SumTree.update] at h
  by_cases hc : b.position < b.idxSum.capacity
  · rw [if_pos hc] at h
    simp only [Except.map] at h
    injection h with h
    subst h
    by_cases hw : b.position + 1 = b.capacity
    · simp [hw, hc]
    · simp [hw, hc]
  · rw [if_neg hc] at h
    simp [Except.map] at h

/-- A successful `update_priorities` loop leaves the cursor, the flags and the
array shapes untouched (it only mutates tree leaves and `max_priority`). -/
lemma updLoop_fields : ∀ (ps : List (Nat × Nat)) (b b' : PrioritizedReplay),
    b.updLoop ps = .ok b' →
    b'.position = b.position ∧ b'.full = b.full ∧ b'.capacity = b.capacity ∧
    b'.batchSize = b.batchSize ∧ b'.alpha = b.alpha ∧
    b'.idxSum.capacity = b.idxSum.capacity ∧
    b'.idxSum.leaves.length = b.idxSum.leaves.length ∧
    b'.states = b.states ∧ b'.actions = b.actions ∧ b'.rewards = b.rewards ∧
    b'.nextStates = b.nextStates ∧ b'.isTerminal = b.isTerminal := by
  intro ps
  induction ps with
  | nil =>
    intro b b' h
    rw [PrioritizedReplay.updLoop] at h
    injection h with h
    subst h
    exact ⟨rfl, rfl, rfl, rfl, rfl, rfl, rfl, rfl, rfl, rfl, rfl, rfl⟩
  | cons hd tl ih =>
    intro b b' h
    rw [PrioritizedReplay.updLoop, SumTree.update] at h
    by_cases hc : hd.1 < b.idxSum.capacity
    · rw [if_pos hc] at h
      simp only [Except.bind] at h
      obtain ⟨h1, h2, h3, h4, h5, h6, h7, h8, h9, h10, h11, h12⟩ := ih _ _ h
      simp only [List.length_set] at h7
      exact ⟨h1, h2, h3, h4, h5, h6, h7, h8, h9, h10, h11, h12⟩
    · rw [if_neg hc] at h
      simp [Except.bind] at h

/-- If some zipped pair carries an index at or beyond the tree capacity, the
`update_priorities` loop surfaces the tree's contract violation. -/
lemma updLoop_error : ∀ (ps : List (Nat × Nat)) (b : PrioritizedReplay),
    (∃ pr ∈ ps, b.idxSum.capacity ≤ pr.1) →
    (b.updLoop ps).toOption = none := by
  intro ps
  induction ps with
  | nil =>
    intro b h
    obtain ⟨pr, hpr, _⟩ := h
    simp at hpr
  | cons hd tl ih =>
    intro b h
    rw [PrioritizedReplay.updLoop, SumTree.update]
    by_cases hc : hd.1 < b.idxSum.capacity
    · rw [if_pos hc]
      simp only [Except.bind]
      obtain ⟨pr, hpr, hge⟩ := h
      rcases List.mem_cons.mp hpr with heq | hmem
      · subst heq; omega
      · exact ih _ ⟨pr, hmem, hge⟩
    · rw [if_neg hc]
      simp [Except.bind, Except.toOption]

/-- Every member of a list of nonnegative reals is bounded by the
`foldr max 0` of the list. -/
lemma foldr_max_le (l : List ℝ) (x : ℝ) (hx : x ∈ l) : x ≤ l.foldr max 0 := by
  induction l with
  | nil => simp at hx
  | cons a tl ih =>
    rcases List.mem_cons.mp hx with heq | hmem
    · subst heq; exact le_max_left _ _
    · exact le_trans (ih hmem) (le_max_right _ _)

/-- For a nonempty list of positive reals, `foldr max 0` is one of the
elements. -/
lemma foldr_max_mem (l : List ℝ) (hne : l ≠ []) (hpos : ∀ x ∈ l, 0 < x) :
    l.foldr max 0 ∈ l := by
  induction l with
  | nil => exact absurd rfl hne
  | cons a tl ih =>
    rcases eq_or_ne tl [] with htl | htl
    · subst htl
      simp only [List.foldr_cons, List.foldr_nil]
      rw [max_eq_left (hpos a (by simp)).le]
      simp
    · have hmem := ih htl (fun x hx => hpos x (List.mem_cons_of_mem a hx))
      simp only [List.foldr_cons]
      rcases le_total (tl.foldr max 0) a with hle | hle
      · rw [max_eq_left hle]; simp
      · rw [max_eq_right hle]
        exact List.mem_cons_of_mem a hmem

/-- Dividing a list elementwise by a positive constant divides its
`foldr max 0`. -/
lemma foldr_max_map_div (l : List ℝ) (M : ℝ) (hM : 0 < M) :
    (l.map (fun w => w / M)).foldr max 0 = l.foldr max 0 / M := by
  induction l with
  | nil => simp
  | cons a tl ih =>
    simp only [List.map_cons, List.foldr_cons, ih]
    exact max_div_div_right hM.le a _

/-! ## Claims -/

/-- C1: the claim states that `Store` sets the sum-tree leaf of the written
slot to `maxPriority ^ alpha`.  The source instead computes
`max_priority * alpha` (multiplication).  Concrete evaluation at the failing
input: a fresh buffer with `alpha = 2` has `max_priority = 1`; storing one
transition writes leaf 0 with `1 * 2 = 2`, whereas the claimed value is
`1 ^ 2 = 1` (real exponentiation).  The two differ. -/
theorem c1_store_multiplies_alpha :
    (((mkPrioritizedReplay 1 4 2 1).Store tr0).toOption.map
      (fun b => b.idxSum.leafValue 0)) = some 2 ∧
    (2 : ℝ) ≠ (1 : ℝ) ^ (2 : ℝ) := by
  constructor
  · with_unfolding_all decide
  · rw [Real.one_rpow]; norm_num

/-- C2: the claim states that `UpdatePriorities` sets the leaf to
`newPriority ^ alpha` and accepts fractional double-precision priorities.
The source takes `priorities` as an `arma::uvec` (unsigned integers, so
fractional priorities cannot even be passed) and writes
`alpha * priorities[i]` (multiplication).  Concrete evaluation: with
`alpha = 3`, `UpdatePriorities([0], [2])` writes leaf 0 with `3 * 2 = 6`
and sets `max_priority = max(1, 2) = 2`, whereas the claimed leaf value is
`2 ^ 3 = 8`.  The `max_priority` update itself matches the claim. -/
theorem c2_update_priorities_multiplies_alpha :
    ((mkPrioritizedReplay 1 4 3 1).update_priorities [0] [2]).toOption.map
      (fun b => (b.idxSum.leafValue 0, b.max_priority)) = some (6, 2) ∧
    (6 : ℝ) ≠ (2 : ℝ) ^ (3 : ℝ) := by
  constructor
  · with_unfolding_all decide
  · have h8 : (2 : ℝ) ^ (3 : ℝ) = 8 := by
      rw [show (3 : ℝ) = ((3 : ℕ) : ℝ) by norm_num, Real.rpow_natCast]
      norm_num
    rw [h8]; norm_num

/-- C4 counterexample: on a freshly constructed buffer (no transition ever
stored: `position = 0`, `full = false`) `sampleProportional` does not fail:
the populated-range upper bound `(full ? capacity : position) - 1`
underflows in `size_t`, the range sum over the all-zero tree is 0, every
stratum mass is 0, and `FindPrefixSum` clamps each draw to leaf
`capacity - 1 = 3` — a never-written slot.  A full batch `[3, 3]` of
`batchSize = 2` indices is returned to the caller; no `EmptyBufferError`
exists anywhere in this code path. -/
theorem c4_counterexample :
    (mkPrioritizedReplay 2 4 1 1).position = 0 ∧
    (mkPrioritizedReplay 2 4 1 1).full = false ∧
    (mkPrioritizedReplay 2 4 1 1).sampleProportional [1/2, 1/2] = [3, 3] := by
  refine ⟨rfl, rfl, ?_⟩
  with_unfolding_all decide

/-- C4 amended: calling `sampleProportional` on a freshly constructed, empty
buffer never fails and never returns an error; for every configuration and
every list of random draws it returns a full batch of `batchSize` copies of
the clamped index `capacity - 1`, a slot that has never been written. -/
theorem c4_empty_buffer_returns_clamped_batch
    (batchSize capacity : Nat) (alpha : ℚ) (dimension : Nat)
    (draws : List ℚ) :
    (mkPrioritizedReplay batchSize capacity alpha dimension).sampleProportional
      draws = List.replicate batchSize (capacity - 1) := by
  unfold mkPrioritizedReplay PrioritizedReplay.sampleProportional
  simp [SumTree.rangeSum, SumTree.findPrefixSum, SumTree.total,
    List.take_replicate, List.sum_replicate, List.drop_replicate,
    List.map_const']

/-- C8 counterexample: the constructor performs no validation at all.  With
the invalid configuration `batchSize = 0`, `capacity = 4`, `alpha = -1`
(non-positive batch size and negative alpha) construction succeeds and
yields a fully formed buffer — there is no `InvalidConfiguration` failure
anywhere in the constructor.  (With `capacity = 0` it also succeeds, sizing
the tree at 1.) -/
theorem c8_counterexample :
    (mkPrioritizedReplay 0 4 (-1) 1).batchSize = 0 ∧
    (mkPrioritizedReplay 0 4 (-1) 1).alpha = -1 ∧
    (mkPrioritizedReplay 0 4 (-1) 1).max_priority = 1 ∧
    (mkPrioritizedReplay 0 4 (-1) 1).idxSum.leaves.length = 4 ∧
    (mkPrioritizedReplay 0 0 (-1) 0).idxSum.leaves.length = 1 := by
  with_unfolding_all decide

/-- C8 amended: construction never fails — no configuration validation is
performed, and every configuration (including non-positive sizes and
negative `alpha`) produces a buffer.  The second half of the claim holds:
the sum tree is sized to the smallest power of two `>= capacity`. -/
theorem c8_no_validation_and_pow2_tree_size
    (batchSize capacity : Nat) (alpha : ℚ) (dimension : Nat) :
    (mkPrioritizedReplay batchSize capacity alpha
        dimension).idxSum.leaves.length = treeSize capacity ∧
    (∃ m, treeSize capacity = 2 ^ m) ∧
    capacity ≤ treeSize capacity ∧
    (∀ j, capacity ≤ 2 ^ j → treeSize capacity ≤ 2 ^ j) := by
  obtain ⟨h1, m, hm, hmin⟩ := treeSize_spec capacity
  exact ⟨by simp [mkPrioritizedReplay], ⟨m, hm⟩, h1, hmin⟩

/-- C9 counterexample: `update_priorities` with an index that is inside
`[0, capacity)` but outside the populated range is accepted silently, with
no error of any kind.  Concretely: store one transition into a fresh
`capacity = 4` buffer (populated range `[0, 1)`, `full = false`), then call
`update_priorities([3], [5])`.  The call succeeds (`position = 1`,
`full = false` confirm slot 3 was never written) and silently writes
`alpha * 5 = 5` into the unpopulated leaf 3, contradicting the claim that
such calls surface an error. -/
theorem c9_counterexample :
    (((mkPrioritizedReplay 1 4 1 1).Store tr0).bind
        (fun b => b.update_priorities [3] [5])).toOption.map
      (fun b => (b.position, b.full, b.idxSum.leafValue 3))
      = some (1, false, 5) := by
  with_unfolding_all decide

/-- C9 amended: an index at or beyond `capacity` given to
`update_priorities` surfaces the sum tree's contract violation to the caller
immediately (the call returns no buffer), and the index is never clamped;
but an index inside `[0, capacity)` that lies outside the populated range is
accepted silently.  Stated for any buffer whose tree records the buffer's
capacity (as every constructed buffer does). -/
theorem c9_out_of_capacity_index_errors
    (b : PrioritizedReplay) (indices priorities : List Nat) (i : Nat)
    (htc : b.idxSum.capacity = b.capacity)
    (hi : i ∈ indices)
    (hcap : b.capacity ≤ i)
    (hlen : indices.length = priorities.length) :
    (b.update_priorities indices priorities).toOption = none := by
  rw [PrioritizedReplay.update_priorities]
  apply updLoop_error
  obtain ⟨k, hk, hik⟩ := List.getElem_of_mem hi
  have hkp : k < priorities.length := by omega
  have hkz : k < (indices.zip priorities).length := by
    rw [List.length_zip]; omega
  refine ⟨(indices.zip priorities)[k], List.getElem_mem hkz, ?_⟩
  have hz : (indices.zip priorities)[k] = (indices[k], priorities[k]) :=
    List.getElem_zip
  rw [hz]
  simpa [hik, htc] using hcap

/-- C9 witness: the amended theorem applied at a concrete fresh buffer
(`capacity = 4`, tree capacity 4) with the out-of-range index 9. -/
theorem c9_out_of_capacity_index_errors_witness :
    ((mkPrioritizedReplay 1 4 1 1).idxSum.capacity
        = (mkPrioritizedReplay 1 4 1 1).capacity ∧
      9 ∈ [9] ∧ (mkPrioritizedReplay 1 4 1 1).capacity ≤ 9 ∧
      [9].length = [2].length) ∧
    ((mkPrioritizedReplay 1 4 1 1).update_priorities [9] [2]).toOption
      = none := by
  refine ⟨⟨by with_unfolding_all decide, by decide,
    by with_unfolding_all decide, by decide⟩, ?_⟩
  exact c9_out_of_capacity_index_errors (mkPrioritizedReplay 1 4 1 1) [9] [2] 9
    (by with_unfolding_all decide) (by decide)
    (by with_unfolding_all decide) (by decide)

/-- A concrete populated buffer used in concrete instantiations: capacity 2,
batch size 1, `alpha = 1`, one transition stored, so the populated range is
`[0, 1)` and leaf 0 holds priority 1. -/
def sampleBuf : PrioritizedReplay :=
  { alpha := 1
    max_priority := 1
    idxSum := { leaves := [1, 0], capacity := 2 }
    batchSize := 1
    capacity := 2
    position := 1
    states := [[0], [0]]
    actions := [0, 0]
    rewards := [0, 0]
    nextStates := [[0], [0]]
    isTerminal := [false, false]
    full := false }

/-- C7: `sampleProportional` on a non-empty buffer computes the total as the
range sum of the leaves over the populated range `[0, upperBound - 1]` only,
splits it into `batchSize` equal strata of width `total / batchSize`, draws
one mass `draw * segment + b * segment` per stratum `b`, resolves it through
the prefix-sum descent, and returns exactly `batchSize` indices. -/
theorem c7_stratified_sampling (b : PrioritizedReplay) (draws : List ℚ)
    (h1 : 0 < (if b.full then b.capacity else b.position))
    (h64 : (if b.full then b.capacity else b.position) ≤ 2 ^ 64) :
    (b.sampleProportional draws).length = b.batchSize ∧
    b.sampleProportional draws = (List.range b.batchSize).map (fun bt =>
      b.idxSum.findPrefixSum
        (draws.getD bt 0 *
          ((b.idxSum.leaves.take
              (if b.full then b.capacity else b.position)).sum
            / (b.batchSize : ℚ)) +
        (bt : ℚ) *
          ((b.idxSum.leaves.take
              (if b.full then b.capacity else b.position)).sum
            / (b.batchSize : ℚ)))) := by
  constructor
  · simp [PrioritizedReplay.sampleProportional]
  · rw [PrioritizedReplay.sampleProportional]
    rw [rangeSum_take b.idxSum _ h1 h64]

/-- C7 witness: the theorem applied to the concrete populated buffer
`sampleBuf` with a single draw. -/
theorem c7_stratified_sampling_witness :
    ((0 < (if sampleBuf.full then sampleBuf.capacity else sampleBuf.position))
      ∧ (if sampleBuf.full then sampleBuf.capacity else sampleBuf.position)
          ≤ 2 ^ 64) ∧
    ((sampleBuf.sampleProportional [0]).length = sampleBuf.batchSize ∧
    sampleBuf.sampleProportional [0] =
      (List.range sampleBuf.batchSize).map (fun bt =>
        sampleBuf.idxSum.findPrefixSum
          (([0] : List ℚ).getD bt 0 *
            ((sampleBuf.idxSum.leaves.take
                (if sampleBuf.full then sampleBuf.capacity
                  else sampleBuf.position)).sum
              / (sampleBuf.batchSize : ℚ)) +
          (bt : ℚ) *
            ((sampleBuf.idxSum.leaves.take
                (if sampleBuf.full then sampleBuf.capacity
                  else sampleBuf.position)).sum
              / (sampleBuf.batchSize : ℚ))))) :=
  ⟨⟨by decide, by decide⟩,
    c7_stratified_sampling sampleBuf [0] (by decide) (by decide)⟩

/-- C6 counterexample: a buffer holding one transition (populated range
`[0, 1)`, `full = false`, `position = 1`) whose populated leaf is then set to
priority 0 via `update_priorities([0], [0])`.  The populated mass is 0, so
`FindPrefixSum` clamps to `capacity - 1 = 3`: `sampleProportional` returns
index 3, which is `>= upperBound = 1` and refers to a slot that has never
been written — contradicting the claim.  (The same failure arises with
`alpha = 0`, where `Store` writes leaf value `max_priority * 0 = 0`.) -/
theorem c6_counterexample :
    ((((mkPrioritizedReplay 1 4 1 1).Store tr0).bind
        (fun b => b.update_priorities [0] [0])).toOption.map
      (fun b => (b.full, b.position, b.sampleProportional [1/2])))
      = some (false, 1, [3]) := by
  with_unfolding_all decide

/-- C6 amended: on a buffer holding at least one transition, provided the
total priority mass of the populated range is positive (and leaves are
nonnegative, as all real priority updates keep them), every index returned
by `sampleProportional` (hence by `Sample`, which returns those indices) is
strictly less than `upperBound`, regardless of the values of leaves outside
the populated range: every stratum mass lies below the populated-range
prefix sum, so the descent lands inside the populated prefix.  When the
populated mass is zero (priority 0 updates, or `alpha = 0` together with
the multiplication slip in `Store`), `FindPrefixSum` instead clamps to
`capacity - 1`, which can be an unwritten slot. -/
theorem c6_indices_below_upper_bound
    (b : PrioritizedReplay) (draws : List ℚ) (ub : Nat)
    (hub : ub = if b.full then b.capacity else b.position)
    (h1 : 0 < ub)
    (h64 : ub ≤ 2 ^ 64)
    (hnn : ∀ x ∈ b.idxSum.leaves, 0 ≤ x)
    (hmass : 0 < (b.idxSum.leaves.take ub).sum)
    (hdraw : ∀ r ∈ draws, 0 ≤ r ∧ r < 1)
    (hbs : 0 < b.batchSize) :
    ∀ idx ∈ b.sampleProportional draws, idx < ub := by
  intro idx hidx
  rw [PrioritizedReplay.sampleProportional, ← hub,
    rangeSum_take b.idxSum ub h1 h64] at hidx
  obtain ⟨bt, hbt, heq⟩ := List.mem_map.mp hidx
  rw [List.mem_range] at hbt
  have hbsq : (0 : ℚ) < (b.batchSize : ℚ) := by exact_mod_cast hbs
  have hseg : 0 < (b.idxSum.leaves.take ub).sum / (b.batchSize : ℚ) :=
    div_pos hmass hbsq
  have hr : 0 ≤ draws.getD bt 0 ∧ draws.getD bt 0 < 1 := by
    by_cases hbd : bt < draws.length
    · refine hdraw _ ?_
      rw [List.getD_eq_getElem?_getD, List.getElem?_eq_getElem hbd,
        Option.getD_some]
      exact List.getElem_mem hbd
    · rw [List.getD_eq_getElem?_getD, List.getElem?_eq_none (by omega)]
      exact ⟨le_refl 0, zero_lt_one⟩
  have hm0 : 0 ≤ draws.getD bt 0 *
        ((b.idxSum.leaves.take ub).sum / (b.batchSize : ℚ)) +
      (bt : ℚ) * ((b.idxSum.leaves.take ub).sum / (b.batchSize : ℚ)) :=
    add_nonneg (mul_nonneg hr.1 hseg.le)
      (mul_nonneg (Nat.cast_nonneg bt) hseg.le)
  have hbtq : (bt : ℚ) + 1 ≤ (b.batchSize : ℚ) := by exact_mod_cast hbt
  have hmT : draws.getD bt 0 *
        ((b.idxSum.leaves.take ub).sum / (b.batchSize : ℚ)) +
      (bt : ℚ) * ((b.idxSum.leaves.take ub).sum / (b.batchSize : ℚ))
      < (b.idxSum.leaves.take ub).sum := by
    have hlt : draws.getD bt 0 + (bt : ℚ) < (b.batchSize : ℚ) := by
      linarith [hr.2]
    calc draws.getD bt 0 *
          ((b.idxSum.leaves.take ub).sum / (b.batchSize : ℚ)) +
        (bt : ℚ) * ((b.idxSum.leaves.take ub).sum / (b.batchSize : ℚ))
        = (draws.getD bt 0 + (bt : ℚ)) *
          ((b.idxSum.leaves.take ub).sum / (b.batchSize : ℚ)) := by ring
      _ < (b.batchSize : ℚ) *
          ((b.idxSum.leaves.take ub).sum / (b.batchSize : ℚ)) :=
        mul_lt_mul_of_pos_right hlt hseg
      _ = (b.idxSum.leaves.take ub).sum := by
        rw [mul_comm, div_mul_cancel₀ _ (ne_of_gt hbsq)]
  have hTle : (b.idxSum.leaves.take ub).sum ≤ b.idxSum.total := by
    have hd : 0 ≤ (b.idxSum.leaves.drop ub).sum :=
      List.sum_nonneg (fun x hx => hnn x (List.mem_of_mem_drop hx))
    have hs : (b.idxSum.leaves.take ub).sum +
        (b.idxSum.leaves.drop ub).sum = b.idxSum.total :=
      List.sum_take_add_sum_drop _ _
    linarith
  have hguard : draws.getD bt 0 *
        ((b.idxSum.leaves.take ub).sum / (b.batchSize : ℚ)) +
      (bt : ℚ) * ((b.idxSum.leaves.take ub).sum / (b.batchSize : ℚ))
      < b.idxSum.total := lt_of_lt_of_le hmT hTle
  rw [SumTree.findPrefixSum, if_pos hguard] at heq
  obtain ⟨hlt', hpre'⟩ := treeDescend_le b.idxSum.leaves.length
    b.idxSum.leaves le_rfl _ hm0 hguard hnn
  rw [heq] at hlt' hpre'
  by_contra hge
  push_neg at hge
  have hmono : (b.idxSum.leaves.take ub).sum ≤ (b.idxSum.leaves.take idx).sum :=
    take_sum_mono b.idxSum.leaves ub idx hge hnn
  linarith

/-- C6 witness: the amended theorem applied to the concrete populated buffer
`sampleBuf` (one stored transition with positive priority). -/
theorem c6_indices_below_upper_bound_witness :
    ((1 = if sampleBuf.full then sampleBuf.capacity else sampleBuf.position) ∧
      0 < 1 ∧ 1 ≤ 2 ^ 64 ∧
      (∀ x ∈ sampleBuf.idxSum.leaves, (0 : ℚ) ≤ x) ∧
      (0 : ℚ) < (sampleBuf.idxSum.leaves.take 1).sum ∧
      (∀ r ∈ ([1/2] : List ℚ), 0 ≤ r ∧ r < 1) ∧
      0 < sampleBuf.batchSize) ∧
    ∀ idx ∈ sampleBuf.sampleProportional [1/2], idx < 1 :=
  ⟨⟨by decide, by decide, by decide, by with_unfolding_all decide,
    by with_unfolding_all decide, by with_unfolding_all decide, by decide⟩,
    c6_indices_below_upper_bound sampleBuf [1/2] 1 (by decide) (by decide)
      (by decide) (by with_unfolding_all decide)
      (by with_unfolding_all decide) (by with_unfolding_all decide)
      (by decide)⟩

/-- C3: on a successful `Sample(beta)` call over a populated buffer, each
sampled index `i` receives the unnormalized weight
`(N * p_i) ^ (-beta)` with `p_i = leafValue(i) / Total()` (the whole-tree
root sum — the source divides by `idxSum.sum()`, not by the populated-range
sum) and `N = full ? capacity : position`; the returned weight vector is the
raw vector divided by its maximum, so the maximum returned weight is exactly
1 and every returned weight lies in `(0, 1]`.  The positivity hypotheses
(positive populated count, positive tree total, positive sampled leaves)
hold on every sample drawn from a buffer with positive priority mass. -/
theorem c3_sample_weights (b : PrioritizedReplay) (draws : List ℚ) (beta : ℝ)
    (_hbeta : 0 < beta)
    (hN : 0 < (if b.full then b.capacity else b.position))
    (htot : 0 < b.idxSum.total)
    (hne : b.sampleProportional draws ≠ [])
    (hpos : ∀ i ∈ b.sampleProportional draws, 0 < b.idxSum.leafValue i) :
    (b.Sample draws beta).weights =
      ((b.sampleProportional draws).map (fun i =>
        (((if b.full then b.capacity else b.position : Nat) : ℝ) *
          ((b.idxSum.leafValue i : ℝ) / (b.idxSum.total : ℝ))) ^ (-beta))).map
        (fun w => w /
          ((b.sampleProportional draws).map (fun i =>
            (((if b.full then b.capacity else b.position : Nat) : ℝ) *
              ((b.idxSum.leafValue i : ℝ) / (b.idxSum.total : ℝ)))
                ^ (-beta))).foldr max 0) ∧
    (b.Sample draws beta).weights.foldr max 0 = 1 ∧
    ∀ w ∈ (b.Sample draws beta).weights, 0 < w ∧ w ≤ 1 := by
  have hraw : ∀ w ∈ ((b.sampleProportional draws).map (fun i =>
      (((if b.full then b.capacity else b.position : Nat) : ℝ) *
        ((b.idxSum.leafValue i : ℝ) / (b.idxSum.total : ℝ))) ^ (-beta))),
      0 < w := by
    intro w hw
    obtain ⟨i, hi, hwe⟩ := List.mem_map.mp hw
    have hNq : (0 : ℝ) < ((if b.full then b.capacity else b.position : Nat) : ℝ) := by
      exact_mod_cast hN
    have hleaf : (0 : ℝ) < (b.idxSum.leafValue i : ℝ) := by
      exact_mod_cast hpos i hi
    have htq : (0 : ℝ) < (b.idxSum.total : ℝ) := by exact_mod_cast htot
    rw [← hwe]
    exact Real.rpow_pos_of_pos (mul_pos hNq (div_pos hleaf htq)) _
  have hrawne : ((b.sampleProportional draws).map (fun i =>
      (((if b.full then b.capacity else b.position : Nat) : ℝ) *
        ((b.idxSum.leafValue i : ℝ) / (b.idxSum.total : ℝ))) ^ (-beta)))
      ≠ [] := by
    simpa using hne
  have hMmem := foldr_max_mem _ hrawne hraw
  have hM : 0 < ((b.sampleProportional draws).map (fun i =>
      (((if b.full then b.capacity else b.position : Nat) : ℝ) *
        ((b.idxSum.leafValue i : ℝ) / (b.idxSum.total : ℝ))) ^ (-beta))).foldr
      max 0 := hraw _ hMmem
  refine ⟨rfl, ?_, ?_⟩
  · show (((b.sampleProportional draws).map (fun i =>
        (((if b.full then b.capacity else b.position : Nat) : ℝ) *
          ((b.idxSum.leafValue i : ℝ) / (b.idxSum.total : ℝ))) ^ (-beta))).map
        (fun w => w / _)).foldr max 0 = 1
    rw [foldr_max_map_div _ _ hM]
    exact div_self (ne_of_gt hM)
  · intro w hw
    obtain ⟨x, hx, hxe⟩ := List.mem_map.mp hw
    refine ⟨?_, ?_⟩
    · rw [← hxe]
      exact div_pos (hraw x hx) hM
    · rw [← hxe]
      exact (div_le_one hM).mpr (foldr_max_le _ x hx)

/-- C3 witness: the theorem applied to the concrete populated buffer
`sampleBuf` with one draw and `beta = 1`; the sampled index is 0, whose leaf
priority is positive. -/
theorem c3_sample_weights_witness :
    ((0 : ℝ) < 1 ∧
      0 < (if sampleBuf.full then sampleBuf.capacity else sampleBuf.position) ∧
      0 < sampleBuf.idxSum.total ∧
      sampleBuf.sampleProportional [0] ≠ [] ∧
      (∀ i ∈ sampleBuf.sampleProportional [0],
        0 < sampleBuf.idxSum.leafValue i)) ∧
    ((sampleBuf.Sample [0] 1).weights =
      ((sampleBuf.sampleProportional [0]).map (fun i =>
        (((if sampleBuf.full then sampleBuf.capacity
            else sampleBuf.position : Nat) : ℝ) *
          ((sampleBuf.idxSum.leafValue i : ℝ) /
            (sampleBuf.idxSum.total : ℝ))) ^ (-(1 : ℝ)))).map
        (fun w => w /
          ((sampleBuf.sampleProportional [0]).map (fun i =>
            (((if sampleBuf.full then sampleBuf.capacity
                else sampleBuf.position : Nat) : ℝ) *
              ((sampleBuf.idxSum.leafValue i : ℝ) /
                (sampleBuf.idxSum.total : ℝ))) ^ (-(1 : ℝ)))).foldr max 0) ∧
    (sampleBuf.Sample [0] 1).weights.foldr max 0 = 1 ∧
    ∀ w ∈ (sampleBuf.Sample [0] 1).weights, 0 < w ∧ w ≤ 1) :=
  ⟨⟨one_pos, by decide, by with_unfolding_all decide,
    by with_unfolding_all decide, by with_unfolding_all decide⟩,
    c3_sample_weights sampleBuf [0] 1 one_pos (by decide)
      (by with_unfolding_all decide) (by with_unfolding_all decide)
      (by with_unfolding_all decide)⟩

/-- Reduction of `Except.bind` on a success value. -/
lemma except_ok_bind {e a b : Type} (x : a) (f : a → Except e b) :
    (Except.ok x : Except e a).bind f = f x := rfl

/-- Unfolding of one `storeN` step. -/
lemma storeN_cons (b : PrioritizedReplay) (t : Transition)
    (tl : List Transition) :
    b.storeN (t :: tl) = (b.Store t).bind (fun b' => b'.storeN tl) := rfl

/-- Reading back the slot just written by `List.set`. -/
lemma getD_set_self {α : Type} (l : List α) (i : Nat) (a d : α)
    (h : i < l.length) : (l.set i a).getD i d = a := by
  rw [List.getD_eq_getElem?_getD, List.getElem?_set_self h, Option.getD_some]

/-- A `List.set` leaves every other slot unchanged. -/
lemma getD_set_ne {α : Type} (l : List α) (i j : Nat) (a d : α)
    (h : i ≠ j) : (l.set i a).getD j d = l.getD j d := by
  rw [List.getD_eq_getElem?_getD, List.getElem?_set_ne h,
    ← List.getD_eq_getElem?_getD]

/-- Boolean bookkeeping for the `full` flag across one `Store` step. -/
lemma full_flag_step (f : Bool) (cap pos len : Nat) (hpos : pos < cap) :
    ((f || decide (pos + 1 = cap)) || decide (cap ≤ (pos + 1) % cap + len))
      = (f || decide (cap ≤ pos + (len + 1))) := by
  by_cases hw : pos + 1 = cap
  · have h1 : cap ≤ pos + (len + 1) := by omega
    simp [hw, h1]
  · have h2 : (pos + 1) % cap = pos + 1 := Nat.mod_eq_of_lt (by omega)
    have h3 : (cap ≤ pos + 1 + len) = (cap ≤ pos + (len + 1)) := by
      have h4 : pos + 1 + len = pos + (len + 1) := by omega
      rw [h4]
    simp [hw, h2, h3]
/-- Characterization of iterated `Store` from any well-formed buffer state:
it always succeeds, preserves the capacity and the array shapes, advances the
cursor by the number of stores modulo `capacity`, sets `full` as soon as the
total store count reaches `capacity`, and leaves every slot not written
during the run untouched. -/
lemma storeN_ok : ∀ (ts : List Transition) (b : PrioritizedReplay),
    b.position < b.capacity →
    b.idxSum.capacity = b.capacity →
    b.states.length = b.capacity →
    b.actions.length = b.capacity →
    b.rewards.length = b.capacity →
    b.nextStates.length = b.capacity →
    b.isTerminal.length = b.capacity →
    ∃ b', b.storeN ts = .ok b' ∧
      b'.capacity = b.capacity ∧
      b'.idxSum.capacity = b.capacity ∧
      b'.states.length = b.capacity ∧
      b'.actions.length = b.capacity ∧
      b'.rewards.length = b.capacity ∧
      b'.nextStates.length = b.capacity ∧
      b'.isTerminal.length = b.capacity ∧
      b'.position = (b.position + ts.length) % b.capacity ∧
      b'.full = (b.full || decide (b.capacity ≤ b.position + ts.length)) ∧
      (∀ j, (∀ m, m < ts.length → (b.position + m) % b.capacity ≠ j) →
        b'.getTransition j = b.getTransition j) := by
  intro ts
  induction ts with
  | nil =>
    intro b hpos htc hs ha hr hn hi
    refine ⟨b, rfl, rfl, htc, hs, ha, hr, hn, hi, ?_, ?_, fun j _ => rfl⟩
    · rw [List.length_nil, Nat.add_zero, Nat.mod_eq_of_lt hpos]
    · simp only [List.length_nil, Nat.add_zero]
      rw [decide_eq_false (by omega : ¬ b.capacity ≤ b.position),
        Bool.or_false]
  | cons t tl ih =>
    intro b hpos htc hs ha hr hn hi
    obtain ⟨b1, hb1⟩ := Store_isOk b t (by omega)
    obtain ⟨fpos, ffull, fcap, _, _, _, ftc, _, fst, fac, frw, fns, fit, _⟩ :=
      Store_fields b t b1 hb1
    have hcap0 : 0 < b.capacity := by omega
    have hp1 : b1.position = (b.position + 1) % b.capacity := by
      rw [fpos]
      by_cases hw : b.position + 1 = b.capacity
      · rw [if_pos hw, hw, Nat.mod_self]
      · rw [if_neg hw, Nat.mod_eq_of_lt (by omega)]
    have hb1pos : b1.position < b1.capacity := by
      rw [hp1, fcap]; exact Nat.mod_lt _ hcap0
    have hb1tc : b1.idxSum.capacity = b1.capacity := by rw [ftc, htc, fcap]
    have hb1s : b1.states.length = b1.capacity := by
      rw [fst, List.length_set, hs, fcap]
    have hb1a : b1.actions.length = b1.capacity := by
      rw [fac, List.length_set, ha, fcap]
    have hb1r : b1.rewards.length = b1.capacity := by
      rw [frw, List.length_set, hr, fcap]
    have hb1n : b1.nextStates.length = b1.capacity := by
      rw [fns, List.length_set, hn, fcap]
    have hb1i : b1.isTerminal.length = b1.capacity := by
      rw [fit, List.length_set, hi, fcap]
    obtain ⟨b2, hb2, g1, g2, g3, g4, g5, g6, g7, gpos, gfull, gunch⟩ :=
      ih b1 hb1pos hb1tc hb1s hb1a hb1r hb1n hb1i
    have hrun : b.storeN (t :: tl) = .ok b2 := by
      rw [storeN_cons, hb1, except_ok_bind]
      exact hb2
    have hshift : ∀ x : Nat, (b1.position + x) % b1.capacity
        = (b.position + (x + 1)) % b.capacity := by
      intro x
      rw [hp1, fcap, Nat.mod_add_mod]
      congr 1
      omega
    refine ⟨b2, hrun, by rw [g1, fcap], by rw [g2, fcap], by rw [g3, fcap],
      by rw [g4, fcap], by rw [g5, fcap], by rw [g6, fcap],
      by rw [g7, fcap], ?_, ?_, ?_⟩
    · rw [gpos, hshift tl.length, List.length_cons]
    · rw [gfull, ffull, hp1, fcap, List.length_cons]
      exact full_flag_step b.full b.capacity b.position tl.length hpos
    · intro j hj
      have hno1 : ∀ m, m < tl.length →
          (b1.position + m) % b1.capacity ≠ j := by
        intro m hm
        rw [hshift m]
        exact hj (m + 1) (by rw [List.length_cons]; omega)
      have hjpos : b.position ≠ j := by
        have := hj 0 (by rw [List.length_cons]; omega)
        rwa [Nat.add_zero, Nat.mod_eq_of_lt hpos] at this
      rw [gunch j hno1, PrioritizedReplay.getTransition,
        PrioritizedReplay.getTransition, fst, fac, frw, fns, fit,
        getD_set_ne b.states b.position j t.state [] hjpos,
        getD_set_ne b.actions b.position j t.action 0 hjpos,
        getD_set_ne b.rewards b.position j t.reward 0 hjpos,
        getD_set_ne b.nextStates b.position j t.nextState [] hjpos,
        getD_set_ne b.isTerminal b.position j t.isEnd false hjpos]

/-- The run `storeN` distributes over list append. -/
lemma storeN_append : ∀ (l1 l2 : List Transition) (b : PrioritizedReplay),
    b.storeN (l1 ++ l2) = (b.storeN l1).bind (fun x => x.storeN l2) := by
  intro l1
  induction l1 with
  | nil =>
    intro l2 b
    rw [List.nil_append, PrioritizedReplay.storeN, except_ok_bind]
  | cons t tl ih =>
    intro l2 b
    rw [List.cons_append, storeN_cons, storeN_cons]
    cases b.Store t with
    | error e => rfl
    | ok a => rw [except_ok_bind, except_ok_bind, ih]

/-- A one-element `storeN` run is a single `Store`. -/
lemma storeN_singleton (b : PrioritizedReplay) (t : Transition) :
    b.storeN [t] = b.Store t := by
  rw [storeN_cons]
  cases b.Store t with
  | error e => rfl
  | ok a => rw [except_ok_bind]; rfl

/-- A successful `Store` leaves the written transition readable at the write
cursor's slot. -/
lemma Store_writes_slot (b : PrioritizedReplay) (t : Transition)
    (b1 : PrioritizedReplay) (h : b.Store t = .ok b1)
    (hpos : b.position < b.capacity)
    (hs : b.states.length = b.capacity)
    (ha : b.actions.length = b.capacity)
    (hr : b.rewards.length = b.capacity)
    (hn : b.nextStates.length = b.capacity)
    (hi : b.isTerminal.length = b.capacity) :
    b1.getTransition b.position = t := by
  obtain ⟨_, _, _, _, _, _, _, _, fst, fac, frw, fns, fit, _⟩ :=
    Store_fields b t b1 h
  rw [PrioritizedReplay.getTransition, fst, fac, frw, fns, fit,
    getD_set_self b.states b.position t.state [] (by omega),
    getD_set_self b.actions b.position t.action 0 (by omega),
    getD_set_self b.rewards b.position t.reward 0 (by omega),
    getD_set_self b.nextStates b.position t.nextState [] (by omega),
    getD_set_self b.isTerminal b.position t.isEnd false (by omega)]

/-- Adding a positive offset smaller than the modulus changes a residue. -/
lemma mod_add_ne (cap m k : Nat) (hk : 0 < k) (hklt : k < cap) :
    (m + k) % cap ≠ m % cap := by
  intro he
  have h2 : m + k ≡ m + 0 [MOD cap] := by
    rw [Nat.add_zero]
    exact he
  have h3 : k ≡ 0 [MOD cap] := Nat.ModEq.add_left_cancel' m h2
  have h4 : k % cap = 0 := by
    have := h3
    rwa [Nat.ModEq, Nat.zero_mod] at this
  rw [Nat.mod_eq_of_lt hklt] at h4
  omega


/-- The freshly constructed buffer is well-formed. -/
lemma mk_wellFormed (bs cap : Nat) (alpha : ℚ) (dim : Nat) :
    (mkPrioritizedReplay bs cap alpha dim).position = 0 ∧
    (mkPrioritizedReplay bs cap alpha dim).capacity = cap ∧
    (mkPrioritizedReplay bs cap alpha dim).full = false ∧
    (mkPrioritizedReplay bs cap alpha dim).idxSum.capacity = cap ∧
    (mkPrioritizedReplay bs cap alpha dim).states.length = cap ∧
    (mkPrioritizedReplay bs cap alpha dim).actions.length = cap ∧
    (mkPrioritizedReplay bs cap alpha dim).rewards.length = cap ∧
    (mkPrioritizedReplay bs cap alpha dim).nextStates.length = cap ∧
    (mkPrioritizedReplay bs cap alpha dim).isTerminal.length = cap := by
  refine ⟨rfl, rfl, rfl, rfl, ?_, ?_, ?_, ?_, ?_⟩ <;> simp [mkPrioritizedReplay]

/-- Arithmetic bound for stores following store `m` within the last
`capacity` stores of a run. -/
lemma drop_index_small (cap m i n : Nat) (hm2 : m < n) (hmfar : n ≤ m + cap)
    (hi : i < n - (m + 1)) : i + 1 < cap := by omega

/-- Any store among the last `capacity` stores of a run from a fresh buffer
leaves its transition readable at its slot at the end of the run: store `m`
writes slot `m % capacity`, and the at most `capacity - 1` stores that follow
it hit other slots. -/
lemma storeN_content (ts : List Transition) (b' : PrioritizedReplay)
    (bs cap : Nat) (alpha : ℚ) (dim : Nat) (hcap : 0 < cap)
    (hrun : (mkPrioritizedReplay bs cap alpha dim).storeN ts = .ok b')
    (m : Nat) (hm2 : m < ts.length) (hmfar : ts.length ≤ m + cap) :
    b'.getTransition (m % cap) = ts.getD m default := by
  obtain ⟨w1, w2, _, w4, w5, w6, w7, w8, w9⟩ := mk_wellFormed bs cap alpha dim
  -- run over the first m stores
  obtain ⟨bB, hBrun, B1, B2, B3, B4, B5, B6, B7, Bpos, _, _⟩ :=
    storeN_ok (ts.take m) (mkPrioritizedReplay bs cap alpha dim)
      (by rw [w1, w2]; exact hcap) (by rw [w4, w2]) (by rw [w5, w2])
      (by rw [w6, w2]) (by rw [w7, w2]) (by rw [w8, w2]) (by rw [w9, w2])
  have htklen : (ts.take m).length = m := by
    rw [List.length_take]
    exact Nat.min_eq_left (Nat.le_of_lt hm2)
  have hBpos : bB.position = m % cap := by
    rw [Bpos, htklen, w1, w2, Nat.zero_add]
  -- the (m+1)-st store writes slot m % cap
  obtain ⟨bA, hA⟩ := Store_isOk bB (ts.getD m default) (by
    rw [hBpos, B2]
    exact Nat.mod_lt _ hcap)
  have hBpos2 : bB.position < bB.capacity := by
    rw [hBpos, B1]
    exact Nat.mod_lt _ hcap
  have hAwrites : bA.getTransition (m % cap) = ts.getD m default := by
    have h9 := Store_writes_slot bB (ts.getD m default) bA hA hBpos2
      (by rw [B3, B1]) (by rw [B4, B1]) (by rw [B5, B1]) (by rw [B6, B1])
      (by rw [B7, B1])
    rwa [hBpos] at h9
  -- assemble the run over the first m + 1 stores
  have hts1 : ts.take (m + 1) = ts.take m ++ [ts.getD m default] := by
    rw [List.take_succ]
    congr 1
    rw [List.getD_eq_getElem?_getD, List.getElem?_eq_getElem hm2]
    rfl
  have hA2 : (mkPrioritizedReplay bs cap alpha dim).storeN (ts.take (m + 1))
      = .ok bA := by
    rw [hts1, storeN_append, hBrun, except_ok_bind, storeN_singleton, hA]
  -- characterize the state after the first m + 1 stores
  obtain ⟨bA', hA'run, A1, A2, A3, A4, A5, A6, A7, Apos, _, _⟩ :=
    storeN_ok (ts.take (m + 1)) (mkPrioritizedReplay bs cap alpha dim)
      (by rw [w1, w2]; exact hcap) (by rw [w4, w2]) (by rw [w5, w2])
      (by rw [w6, w2]) (by rw [w7, w2]) (by rw [w8, w2]) (by rw [w9, w2])
  have hAA : bA' = bA := by
    rw [hA2] at hA'run
    injection hA'run with h
    exact h.symm
  subst hAA
  have htklen1 : (ts.take (m + 1)).length = m + 1 := by
    rw [List.length_take]
    exact Nat.min_eq_left hm2
  have hApos : bA'.position = (m + 1) % cap := by
    rw [Apos, htklen1, w1, w2, Nat.zero_add]
  -- run the remaining stores; they never revisit slot m % cap
  have key : (mkPrioritizedReplay bs cap alpha dim).storeN ts
      = ((mkPrioritizedReplay bs cap alpha dim).storeN
          (ts.take (m + 1))).bind
        (fun x => x.storeN (ts.drop (m + 1))) := by
    conv_lhs => rw [← List.take_append_drop (m + 1) ts]
    rw [storeN_append]
  rw [key, hA2, except_ok_bind] at hrun
  obtain ⟨b'', hb''run, _, _, _, _, _, _, _, _, _, gunch⟩ :=
    storeN_ok (ts.drop (m + 1)) bA'
      (by rw [hApos, A1]; exact Nat.mod_lt _ hcap) (by rw [A2, A1])
      (by rw [A3, A1]) (by rw [A4, A1]) (by rw [A5, A1]) (by rw [A6, A1])
      (by rw [A7, A1])
  have hbb : b'' = b' := by
    rw [hrun] at hb''run
    injection hb''run with h
    exact h.symm
  subst hbb
  have hnowrite : ∀ i, i < (ts.drop (m + 1)).length →
      (bA'.position + i) % bA'.capacity ≠ m % cap := by
    intro i hi
    rw [List.length_drop] at hi
    rw [hApos, A1, w2, Nat.mod_add_mod,
      show m + 1 + i = m + (i + 1) by rw [Nat.add_assoc, Nat.add_comm 1 i]]
    exact mod_add_ne cap m (i + 1) (Nat.succ_pos i)
      (drop_index_small cap m i ts.length hm2 hmfar hi)
  rw [gunch (m % cap) hnowrite, hAwrites]

/-- C5: storing `capacity + k` transitions (`k >= 1`) into a fresh buffer
leaves it `FULL` with the write cursor at `ts.length % capacity`; the most
recent `capacity` transitions are retained, each at its slot `m % capacity`
(so the oldest `k` are overwritten); and along every prefix of the run the
cursor equals the store count modulo `capacity` (each `Store` advances it by
one modulo `capacity`), with the `FILLING -> FULL` transition happening
exactly when the store count reaches `capacity`, i.e. when the cursor first
wraps to 0. -/
theorem c5_capacity_wrap (bs cap : Nat) (alpha : ℚ) (dim k : Nat)
    (ts : List Transition) (hcap : 0 < cap) (_hk : 1 ≤ k)
    (hlen : ts.length = cap + k) :
    ∃ b', (mkPrioritizedReplay bs cap alpha dim).storeN ts = .ok b' ∧
      b'.full = true ∧
      b'.position = ts.length % cap ∧
      (∀ m, ts.length - cap ≤ m → m < ts.length →
        b'.getTransition (m % cap) = ts.getD m default) ∧
      (∀ p, p ≤ ts.length →
        ∃ bp, (mkPrioritizedReplay bs cap alpha dim).storeN (ts.take p)
            = .ok bp ∧ (bp.full = true ↔ cap ≤ p) ∧
          bp.position = p % cap) := by
  obtain ⟨w1, w2, w3, w4, w5, w6, w7, w8, w9⟩ := mk_wellFormed bs cap alpha dim
  obtain ⟨b', hrun, _, _, _, _, _, _, _, hpos, hfull, _⟩ :=
    storeN_ok ts (mkPrioritizedReplay bs cap alpha dim)
      (by rw [w1, w2]; exact hcap) (by rw [w4, w2]) (by rw [w5, w2])
      (by rw [w6, w2]) (by rw [w7, w2]) (by rw [w8, w2]) (by rw [w9, w2])
  refine ⟨b', hrun, ?_, ?_, ?_, ?_⟩
  · rw [hfull, w3, w1, w2, Bool.false_or, Nat.zero_add]
    exact decide_eq_true (by rw [hlen]; exact Nat.le_add_right cap k)
  · rw [hpos, w1, w2, Nat.zero_add]
  · intro m h1 h2
    exact storeN_content ts b' bs cap alpha dim hcap hrun m h2
      (Nat.sub_le_iff_le_add.mp h1)
  · intro p hp
    obtain ⟨bp, hbp, _, _, _, _, _, _, _, hppos, hpfull, _⟩ :=
      storeN_ok (ts.take p) (mkPrioritizedReplay bs cap alpha dim)
        (by rw [w1, w2]; exact hcap) (by rw [w4, w2]) (by rw [w5, w2])
        (by rw [w6, w2]) (by rw [w7, w2]) (by rw [w8, w2]) (by rw [w9, w2])
    have hplen : (ts.take p).length = p := by
      rw [List.length_take]
      exact Nat.min_eq_left hp
    refine ⟨bp, hbp, ?_, ?_⟩
    · rw [hpfull, hplen, w3, w1, w2, Bool.false_or, Nat.zero_add]
      exact ⟨fun h => of_decide_eq_true h, fun h => decide_eq_true h⟩
    · rw [hppos, hplen, w1, w2, Nat.zero_add]

/-- C5 witness: the theorem applied to a fresh buffer of capacity 2 and a
run of 3 = 2 + 1 stores. -/
theorem c5_capacity_wrap_witness :
    ((0 : Nat) < 2 ∧ 1 ≤ 1 ∧ [tr0, tr1, tr2].length = 2 + 1) ∧
    (∃ b', (mkPrioritizedReplay 1 2 1 1).storeN [tr0, tr1, tr2] = .ok b' ∧
      b'.full = true ∧
      b'.position = [tr0, tr1, tr2].length % 2 ∧
      (∀ m, [tr0, tr1, tr2].length - 2 ≤ m → m < [tr0, tr1, tr2].length →
        b'.getTransition (m % 2) = [tr0, tr1, tr2].getD m default) ∧
      (∀ p, p ≤ [tr0, tr1, tr2].length →
        ∃ bp, (mkPrioritizedReplay 1 2 1 1).storeN
            ([tr0, tr1, tr2].take p) = .ok bp ∧
          (bp.full = true ↔ 2 ≤ p) ∧ bp.position = p % 2)) :=
  ⟨⟨by decide, by decide, by decide⟩,
    c5_capacity_wrap 1 2 1 1 1 [tr0, tr1, tr2] (by decide) (by decide)
      (by decide)⟩

/-- A single successful public operation keeps the cursor inside
`[0, capacity)`, preserves the capacity, and never clears the `full` flag. -/
lemma applyOp_invariant (b : PrioritizedReplay) (op : ReplayOp)
    (b' : PrioritizedReplay) (h : b.applyOp op = .ok b')
    (hpos : b.position < b.capacity) :
    b'.position < b'.capacity ∧ b'.capacity = b.capacity ∧
      (b.full = true → b'.full = true) := by
  cases op with
  | store t =>
    simp only [PrioritizedReplay.applyOp] at h
    obtain ⟨fpos, ffull, fcap, _⟩ := Store_fields b t b' h
    refine ⟨?_, fcap, ?_⟩
    · rw [fpos, fcap]
      by_cases hw : b.position + 1 = b.capacity
      · rw [if_pos hw]; omega
      · rw [if_neg hw]; omega
    · intro hf
      rw [ffull, hf, Bool.true_or]
  | sample draws beta =>
    simp only [PrioritizedReplay.applyOp] at h
    injection h with h
    subst h
    exact ⟨hpos, rfl, fun hf => hf⟩
  | updatePriorities idxs prios =>
    simp only [PrioritizedReplay.applyOp,
      PrioritizedReplay.update_priorities] at h
    obtain ⟨u1, u2, u3, _⟩ := updLoop_fields _ b b' h
    exact ⟨by rw [u1, u3]; exact hpos, u3, fun hf => by rw [u2]; exact hf⟩

/-- Invariants along any successful run of public operations. -/
lemma runOps_invariant : ∀ (ops : List ReplayOp) (b b' : PrioritizedReplay),
    b.runOps ops = .ok b' → b.position < b.capacity →
    b'.position < b'.capacity ∧ b'.capacity = b.capacity ∧
      (b.full = true → b'.full = true) := by
  intro ops
  induction ops with
  | nil =>
    intro b b' h hpos
    rw [PrioritizedReplay.runOps] at h
    injection h with h
    subst h
    exact ⟨hpos, rfl, fun hf => hf⟩
  | cons op rest ih =>
    intro b b' h hpos
    rw [PrioritizedReplay.runOps] at h
    cases happ : b.applyOp op with
    | error e => rw [happ] at h; exact absurd h (by simp [Except.bind])
    | ok b1 =>
      rw [happ, except_ok_bind] at h
      obtain ⟨i1, i2, i3⟩ := applyOp_invariant b op b1 happ hpos
      obtain ⟨j1, j2, j3⟩ := ih b1 b' h i1
      exact ⟨j1, by rw [j2, i2], fun hf => j3 (i3 hf)⟩

/-- C10: on every constructed buffer (positive capacity), after any
successful sequence of `Store`, `Sample` and `update_priorities` operations
the write cursor lies in `[0, capacity)`; once `full` becomes true it stays
true for the rest of the buffer's lifetime; only `Store` mutates the cursor
or the flag (`update_priorities` leaves both untouched, `Sample` does not
mutate the buffer at all); and `Store` advances the cursor to
`(cursor + 1) % capacity`, resetting it to 0 with `full := true` exactly
when it reaches `capacity`. -/
theorem c10_cursor_and_full_invariants (bs cap : Nat) (alpha : ℚ)
    (dim : Nat) (hcap : 0 < cap) :
    (∀ ops b', (mkPrioritizedReplay bs cap alpha dim).runOps ops = .ok b' →
      b'.position < cap ∧ b'.capacity = cap) ∧
    (∀ ops1 ops2 b1 b2,
      (mkPrioritizedReplay bs cap alpha dim).runOps ops1 = .ok b1 →
      b1.runOps ops2 = .ok b2 → b1.full = true → b2.full = true) ∧
    (∀ (b1 : PrioritizedReplay) idxs prios b2,
      b1.update_priorities idxs prios = .ok b2 →
      b2.position = b1.position ∧ b2.full = b1.full) ∧
    (∀ (b1 : PrioritizedReplay) t b2, b1.Store t = .ok b2 →
      b2.position = (if b1.position + 1 = b1.capacity then 0
        else b1.position + 1) ∧
      b2.full = (b1.full || decide (b1.position + 1 = b1.capacity))) := by
  obtain ⟨w1, w2, _⟩ := mk_wellFormed bs cap alpha dim
  have hmkpos : (mkPrioritizedReplay bs cap alpha dim).position
      < (mkPrioritizedReplay bs cap alpha dim).capacity := by
    rw [w1, w2]; exact hcap
  refine ⟨?_, ?_, ?_, ?_⟩
  · intro ops b' h
    obtain ⟨i1, i2, _⟩ := runOps_invariant ops _ b' h hmkpos
    rw [w2] at i2
    exact ⟨by rw [← i2]; exact i1, i2⟩
  · intro ops1 ops2 b1 b2 h1 h2 hf
    obtain ⟨i1, _, _⟩ := runOps_invariant ops1 _ b1 h1 hmkpos
    obtain ⟨_, _, j3⟩ := runOps_invariant ops2 b1 b2 h2 i1
    exact j3 hf
  · intro b1 idxs prios b2 h
    rw [PrioritizedReplay.update_priorities] at h
    obtain ⟨u1, u2, _⟩ := updLoop_fields _ b1 b2 h
    exact ⟨u1, u2⟩
  · intro b1 t b2 h
    obtain ⟨fpos, ffull, _⟩ := Store_fields b1 t b2 h
    exact ⟨fpos, ffull⟩

/-- C10 witness: the theorem applied at a concrete configuration. -/
theorem c10_cursor_and_full_invariants_witness :
    (0 : Nat) < 4 ∧
    ((∀ ops b', (mkPrioritizedReplay 1 4 1 1).runOps ops = .ok b' →
      b'.position < 4 ∧ b'.capacity = 4) ∧
    (∀ ops1 ops2 b1 b2,
      (mkPrioritizedReplay 1 4 1 1).runOps ops1 = .ok b1 →
      b1.runOps ops2 = .ok b2 → b1.full = true → b2.full = true) ∧
    (∀ (b1 : PrioritizedReplay) idxs prios b2,
      b1.update_priorities idxs prios = .ok b2 →
      b2.position = b1.position ∧ b2.full = b1.full) ∧
    (∀ (b1 : PrioritizedReplay) t b2, b1.Store t = .ok b2 →
      b2.position = (if b1.position + 1 = b1.capacity then 0
        else b1.position + 1) ∧
      b2.full = (b1.full || decide (b1.position + 1 = b1.capacity)))) :=
  ⟨by decide, c10_cursor_and_full_invariants 1 4 1 1 (by decide)⟩
